import Mathlib

/-!
Verification of the task-plan tracker core (plan projection, subtask tree
engine, progress aggregation) against its specification.  The definitions
below are a shallow embedding of the TypeScript source in
src/react-client/src/store/TasksProvider.tsx and
src/react-client/src/pages/Tasks.tsx: JavaScript objects become structures
with Option fields for optional keys, arrays become lists or an explicit
forest type, and the pure reducer cases become functions on the
per-category plan state (the reducer looks the plan up under its category
id and recomputes the derived progress record; both are thin wrappers
around the per-plan transitions modelled here).
-/

namespace Tracker

mutual

/-- Subtask tree node, mirroring
type Subtask = { id; title; completed?; notes?; children? } from
TasksProvider.tsx.  A missing or undefined children array and an empty one
behave identically in every modelled operation (both denote a leaf), so
children is an always-present forest here. -/
inductive Subtask where
  | mk (id : String) (title : String) (completed : Option Bool)
       (notes : Option String) (children : Forest)

/-- A list of subtask trees (the contents of a children or subtasks array).
An explicit mutual inductive is used instead of List Subtask so that all
recursive tree operations are structural and computable by the kernel. -/
inductive Forest where
  | nil
  | cons (s : Subtask) (rest : Forest)

end

/-- Projection of the id field. -/
def Subtask.id : Subtask → String
  | .mk i _ _ _ _ => i

/-- Projection of the title field. -/
def Subtask.title : Subtask → String
  | .mk _ t _ _ _ => t

/-- Projection of the optional completed flag. -/
def Subtask.completed : Subtask → Option Bool
  | .mk _ _ c _ _ => c

/-- Projection of the optional notes field. -/
def Subtask.notes : Subtask → Option String
  | .mk _ _ _ n _ => n

/-- Projection of the children forest. -/
def Subtask.children : Subtask → Forest
  | .mk _ _ _ _ ch => ch

/-- Build a forest from a list of nodes (used to write concrete states). -/
def Forest.ofList : List Subtask → Forest
  | [] => .nil
  | s :: rest => .cons s (Forest.ofList rest)

/-- The top-level nodes of a forest as a list (no recursion into children). -/
def Forest.toList : Forest → List Subtask
  | .nil => []
  | .cons s rest => s :: rest.toList

/-- Concatenation of forests, as array spread does in the source. -/
def Forest.append : Forest → Forest → Forest
  | .nil, b => b
  | .cons s rest, b => .cons s (rest.append b)

instance : Append Forest := ⟨Forest.append⟩

/-- Emptiness test on a forest, as a length-zero test in the source. -/
def Forest.isEmpty : Forest → Bool
  | .nil => true
  | .cons _ _ => false

/-- Number of top-level nodes, as the length of the array in the source. -/
def Forest.length : Forest → Nat
  | .nil => 0
  | .cons _ rest => 1 + rest.length

/-- Conjunction of a predicate over the top-level nodes of a forest, as
Array.prototype.every in the source. -/
def Forest.all (p : Subtask → Bool) : Forest → Bool
  | .nil => true
  | .cons s rest => p s && rest.all p

/-- Disjunction of a predicate over the top-level nodes of a forest, as
Array.prototype.some in the source. -/
def Forest.any (p : Subtask → Bool) : Forest → Bool
  | .nil => false
  | .cons s rest => p s || rest.any p

/-- Decidable equality on forests.  The source detects a failed tree insert
by comparing JSON.stringify output of two transforms of the same array,
which coincides with structural equality of the modelled values. -/
def decEqForest : (a b : Forest) → Decidable (a = b)
  | .nil, .nil => .isTrue rfl
  | .nil, .cons _ _ => .isFalse (fun h => Forest.noConfusion h)
  | .cons _ _, .nil => .isFalse (fun h => Forest.noConfusion h)
  | .cons (.mk i t c n ch) as, .cons (.mk i' t' c' n' ch') bs =>
    if h1 : i = i' then
      if h2 : t = t' then
        if h3 : c = c' then
          if h4 : n = n' then
            match decEqForest ch ch' with
            | .isTrue h5 =>
              match decEqForest as bs with
              | .isTrue h6 => .isTrue (by rw [h1, h2, h3, h4, h5, h6])
              | .isFalse h6 => .isFalse (fun h => by cases h; exact h6 rfl)
            | .isFalse h5 => .isFalse (fun h => by cases h; exact h5 rfl)
          else .isFalse (fun h => by cases h; exact h4 rfl)
        else .isFalse (fun h => by cases h; exact h3 rfl)
      else .isFalse (fun h => by cases h; exact h2 rfl)
    else .isFalse (fun h => by cases h; exact h1 rfl)

instance : DecidableEq Forest := decEqForest

instance : DecidableEq Subtask := fun a b =>
  match decEqForest (.cons a .nil) (.cons b .nil) with
  | .isTrue h => .isTrue (by cases a; cases b; cases h; rfl)
  | .isFalse h => .isFalse (fun he => h (by rw [he]))

/-- Boolean coercion of the optional completed flag, as the source does with
double negation or truthiness tests on a possibly undefined field. -/
def completedB (s : Subtask) : Bool := s.completed.getD false

/-- Depth-first search for a node by id, mirroring findNode in the
toggleSubtask reducer case: the node itself is checked before its children,
children before later siblings; the first match is returned. -/
def findNode (targetId : String) : Forest → Option Subtask
  | .nil => none
  | .cons (.mk i t c n ch) rest =>
      if i == targetId then some (.mk i t c n ch)
      else
        match findNode targetId ch with
        | some f => some f
        | none => findNode targetId rest

/-- Whether some node anywhere in the forest carries the given id. -/
def occursForest (targetId : String) (l : Forest) : Bool :=
  (findNode targetId l).isSome

/-- Overwrite the completed flag of a node and every descendant, mirroring
markAll in the toggleTask and toggleSubtask reducer cases. -/
def markAllForest (value : Bool) : Forest → Forest
  | .nil => .nil
  | .cons (.mk i t _ n ch) rest =>
      .cons (.mk i t (some value) n (markAllForest value ch))
        (markAllForest value rest)

/-- Node-level markAll: the node and its whole subtree get the value. -/
def markAllNode (value : Bool) : Subtask → Subtask
  | .mk i t _ n ch => .mk i t (some value) n (markAllForest value ch)

/-- Apply the toggle to every node whose id matches, mirroring applyToggle
in the toggleSubtask reducer case: a matching node with children (as
precomputed from the first found target) has its whole subtree overwritten,
a matching leaf only flips its own flag, and other nodes recurse into their
children. -/
def applyToggle (targetId : String) (next hasChildren : Bool) : Forest → Forest
  | .nil => .nil
  | .cons (.mk i t c n ch) rest =>
      .cons
        (if i == targetId then
          (if hasChildren then markAllNode next (.mk i t c n ch)
           else .mk i t (some next) n ch)
         else .mk i t c n (applyToggle targetId next hasChildren ch))
        (applyToggle targetId next hasChildren rest)

/-- Bottom-up completion propagation, mirroring propagate in the
toggleSubtask and removeSubtask reducer cases: children are fixed first,
then every node with at least one child gets completed set to the
conjunction of its children's coerced completed flags; childless nodes are
left as they are. -/
def propagate : Forest → Forest
  | .nil => .nil
  | .cons (.mk i t c n ch) rest =>
      let fixed := propagate ch
      .cons
        (if fixed.isEmpty then .mk i t c n fixed
         else .mk i t (some (fixed.all completedB)) n fixed)
        (propagate rest)

/-- Delete every node with the given id (with its whole subtree) at any
depth, mirroring remove in the removeSubtask reducer case. -/
def removeNode (targetId : String) : Forest → Forest
  | .nil => .nil
  | .cons (.mk i t c n ch) rest =>
      if i == targetId then removeNode targetId rest
      else .cons (.mk i t c n (removeNode targetId ch)) (removeNode targetId rest)

/-- Replace the notes of every node whose id matches, mirroring setNotes in
the setSubtaskNotes reducer case (a matched node's children are not
revisited). -/
def setNotes (targetId : String) (newNotes : String) : Forest → Forest
  | .nil => .nil
  | .cons (.mk i t c n ch) rest =>
      .cons
        (if i == targetId then .mk i t c (some newNotes) ch
         else .mk i t c n (setNotes targetId newNotes ch))
        (setNotes targetId newNotes rest)

/-- Replace the title of every node whose id matches, mirroring rename in
the renameSubtask reducer case. -/
def renameNode (targetId : String) (newTitle : String) : Forest → Forest
  | .nil => .nil
  | .cons (.mk i t c n ch) rest =>
      .cons
        (if i == targetId then .mk i newTitle c n ch
         else .mk i t c n (renameNode targetId newTitle ch))
        (renameNode targetId newTitle rest)

/-- Append a new node to the children of every node whose id matches,
mirroring addToTree in the addSubtask reducer case (a matched node's
original children are not revisited). -/
def addToTree (newNode : Subtask) (parentId : String) : Forest → Forest
  | .nil => .nil
  | .cons (.mk i t c n ch) rest =>
      .cons
        (if i == parentId then .mk i t c n (ch ++ .cons newNode .nil)
         else .mk i t c n (addToTree newNode parentId ch))
        (addToTree newNode parentId rest)

/-- Insertion step of the addSubtask reducer case on the subtasks array: a
falsy parentId (absent or the empty string) appends at the root; otherwise
the tree insert is attempted and, when it left the tree unchanged (the
source compares JSON.stringify before and after), the node is appended at
the root instead. -/
def addSubtaskSubs (subs0 : Forest) (parentId : Option String)
    (newNode : Subtask) : Forest :=
  match parentId with
  | none => subs0 ++ .cons newNode .nil
  | some pid =>
      if pid = "" then subs0 ++ .cons newNode .nil
      else
        let after := addToTree newNode pid subs0
        if subs0 = after then subs0 ++ .cons newNode .nil else after

/-- Tree-level core of the toggleSubtask reducer case: locate the target
(returning the forest unchanged when it is absent), flip it — overwriting
the whole subtree when it has children — then re-propagate bottom-up. -/
def toggleSubtaskSubs (l : Forest) (targetId : String) : Forest :=
  match findNode targetId l with
  | none => l
  | some target =>
      propagate
        (applyToggle targetId (!completedB target) (!target.children.isEmpty) l)

/-- Tree-level core of the removeSubtask reducer case: delete the target at
any depth, then re-propagate bottom-up (also when nothing was deleted). -/
def removeSubtaskSubs (l : Forest) (targetId : String) : Forest :=
  propagate (removeNode targetId l)

/-- Characters kept verbatim by the slug function: the regex class [a-z0-9]
of the source, by code point (97-122 and 48-57). -/
def isSlugChar (c : Char) : Bool :=
  (decide (97 ≤ c.toNat) && decide (c.toNat ≤ 122)) ||
    (decide (48 ≤ c.toNat) && decide (c.toNat ≤ 57))

/-- Replace every maximal run of characters outside [a-z0-9] with a single
dash, as replace with the global regex does in the source; the flag records
whether a dash was already emitted for the current run. -/
def slugCollapse : List Char → Bool → List Char
  | [], _ => []
  | c :: rest, prevDash =>
      if isSlugChar c then c :: slugCollapse rest false
      else if prevDash then slugCollapse rest true
      else '-' :: slugCollapse rest true

/-- Drop a trailing run of dashes, the second half of the anchored regex
replace in the source. -/
def stripEnd : List Char → List Char
  | [] => []
  | c :: rest =>
      match stripEnd rest with
      | [] => if c == '-' then [] else [c]
      | r => c :: r

/-- Slug pipeline on character lists: lowercase, collapse runs of
disallowed characters to single dashes, strip leading and trailing
dashes. -/
def slugList (l : List Char) : List Char :=
  stripEnd ((slugCollapse (l.map Char.toLower) false).dropWhile (· == '-'))

/-- No two adjacent dashes anywhere in the character list; an invariant of
the collapse step used to prove idempotence of the slug function. -/
def noDD : List Char → Bool
  | [] => true
  | [_] => true
  | a :: b :: rest => !(a == '-' && b == '-') && noDD (b :: rest)

/-- Whether the last character of the list is a dash. -/
def endsDash : List Char → Bool
  | [] => false
  | [c] => c == '-'
  | _ :: rest => endsDash rest

/-- The slug function shared by Tasks.tsx and TasksProvider.tsx:
lowercase, replace runs outside [a-z0-9] with a dash, strip leading and
trailing dashes.  Lowercasing is modelled on basic latin letters; any
character whose lowercase form is outside [a-z0-9] is collapsed into a
dash either way. -/
def slug (s : String) : String := String.mk (slugList s.data)

/-- Deterministic task key, mirroring makeTaskKey in both source files:
categoryId, week, raw day-range string, slugified bucket, slugified
title, joined by double underscores; week is interpolated with its decimal
representation and the day string is embedded unslugified. -/
def makeTaskKey (categoryId : String) (week : Int) (day : String)
    (bucket : String) (title : String) : String :=
  categoryId ++ "__w" ++ toString week ++ "__d" ++ day ++ "__" ++
    slug bucket ++ "__" ++ slug title

/-- Per-task metadata, mirroring
type TaskMeta = { completed?; notes?; subtasks?; tags?; titleOverride? }.
An absent subtasks array and an empty one are distinguished because the
subtask reducer cases bail out only on the former. -/
structure TaskMeta where
  completed : Option Bool := none
  notes : Option String := none
  subtasks : Option Forest := none
  tags : Option (List String) := none
  titleOverride : Option String := none
deriving DecidableEq

/-- The mutable task-metadata map of a plan, a JavaScript object keyed by
task key: an association list with unique keys, looked up by first match. -/
abbrev Tasks := List (String × TaskMeta)

/-- Object property read tasks[key], first binding wins. -/
def lookupTask : Tasks → String → Option TaskMeta
  | [], _ => none
  | (k, m) :: rest, key => if k == key then some m else lookupTask rest key

/-- Object property write tasks[key] = v: replace the first binding with
this key in place, or append a new binding. -/
def setTask : Tasks → String → TaskMeta → Tasks
  | [], key, v => [(key, v)]
  | (k, m) :: rest, key, v =>
      if k == key then (k, v) :: rest else (k, m) :: setTask rest key v

/-- Object property delete: drop every binding with this key. -/
def eraseTask (tasks : Tasks) (key : String) : Tasks :=
  tasks.filter (fun kv => kv.1 != key)

/-- A named pattern with its problem list, from the imported plan shape. -/
structure Pattern where
  name : String
  problems : List String
deriving DecidableEq

/-- One day entry of a week in the imported plan; patterns and activities
are optional arrays. -/
structure DayEntry where
  day : String
  description : Option String := none
  patterns : Option (List Pattern) := none
  activities : Option (List String) := none
deriving DecidableEq

/-- One week entry of the imported plan schedule. -/
structure WeekEntry where
  week : Int
  topic : Option String := none
  days : List DayEntry
deriving DecidableEq

/-- The raw imported plan document. -/
structure ImportedPlan where
  title : String
  schedule : List WeekEntry
deriving DecidableEq

/-- Per-category plan state: the raw plan plus the mutable task-metadata
map, as stored under state.plans[categoryId]. -/
structure PlanState where
  title : String
  startDate : Option String := none
  raw : ImportedPlan
  tasks : Tasks
deriving DecidableEq

/-- Leading decimal digit run of a character list as a number, none when
the list does not start with a digit. -/
def parseDigits (cs : List Char) : Option Nat :=
  let ds := cs.takeWhile Char.isDigit
  if ds.isEmpty then none
  else some (ds.foldl (fun acc c => acc * 10 + (c.toNat - 48)) 0)

/-- JavaScript parseInt with radix 10: skip leading whitespace, accept one
optional sign, read the maximal run of leading decimal digits; none models
NaN (no digit found), which compares unequal to every week number. -/
def parseIntJS (s : String) : Option Int :=
  let cs := s.data.dropWhile Char.isWhitespace
  match cs with
  | '-' :: t => (parseDigits t).map (fun n => -(n : Int))
  | '+' :: t => (parseDigits t).map (fun n => (n : Int))
  | _ => (parseDigits cs).map (fun n => (n : Int))

/-- Split a character list on double underscores, greedy left to right, as
String.prototype.split with separator double underscore does on the
unicode-free task keys. -/
def splitKey : List Char → List (List Char)
  | [] => [[]]
  | '_' :: '_' :: rest => [] :: splitKey rest
  | c :: rest =>
      match splitKey rest with
      | [] => [[c]]
      | g :: gs => (c :: g) :: gs

/-- The last up to four double-underscore segments of a task key, as
key.split and Array.prototype.slice with argument -4 produce them. -/
def keyLast4 (key : String) : List String :=
  let parts := (splitKey key.data).map String.mk
  parts.drop (parts.length - 4)

/-- Week number parsed back out of a task key in the removeTask reducer
case: parseInt of the w-segment without its first character, with the
segment defaulting to the string 0 when missing. -/
def keyWeek (key : String) : Option Int :=
  parseIntJS ((((keyLast4 key)[0]?).map (fun w => w.drop 1)).getD "0")

/-- Raw day-range string parsed back out of a task key: the d-segment,
defaulting to the empty string, without its first character. -/
def keyDayRaw (key : String) : String :=
  (((keyLast4 key)[1]?).getD "").drop 1

/-- Bucket slug segment of a task key, when present. -/
def keyBucketSlug (key : String) : Option String := (keyLast4 key)[2]?

/-- Title slug segment of a task key, when present. -/
def keyTitleSlug (key : String) : Option String := (keyLast4 key)[3]?

/-- The toggleTask reducer case on the plan state: flip the coerced
completed flag of the metadata under this key (treating a missing entry as
incomplete) and overwrite the flag of every stored subtask of that same
entry with the new value.  No other key of the map is touched. -/
def reducerToggleTask (cat : PlanState) (key : String) : PlanState :=
  let prev := ((lookupTask cat.tasks key).bind TaskMeta.completed).getD false
  let next := !prev
  let current := (lookupTask cat.tasks key).getD {}
  { cat with
      tasks := setTask cat.tasks key
        { current with
            completed := some next
            subtasks := current.subtasks.map (markAllForest next) } }

/-- The renameTask reducer case: store a title override under the key. -/
def reducerRenameTask (cat : PlanState) (key : String) (title : String) :
    PlanState :=
  let current := (lookupTask cat.tasks key).getD {}
  { cat with tasks := setTask cat.tasks key { current with titleOverride := some title } }

/-- Day rewrite of the removeTask reducer case: an unmatched day is kept
as is; in the matched day the activity bucket filters the activities by
title slug, any other bucket filters the matching patterns' problem list
by title slug and drops patterns left with no problems. -/
def removeRewriteDay (bucketSlug titleSlug : Option String) (dayRaw : String)
    (d : DayEntry) : DayEntry :=
  if d.day != dayRaw then d
  else
    if bucketSlug == some "activity" then
      let acts := (d.activities.getD []).filter
        (fun act => some (slug act) != titleSlug)
      { d with activities := some acts }
    else
      let pats := ((d.patterns.getD []).map (fun p =>
        if some (slug p.name) == bucketSlug then
          let probs := p.problems.filter (fun pr => some (slug pr) != titleSlug)
          { p with problems := probs }
        else p)).filter (fun p => p.problems.length > 0)
      { d with patterns := some pats }

/-- Week rewrite of the removeTask reducer case: an unmatched week (also
when the parsed week is NaN) is kept as is; in a matched week every day is
rewritten and days left with no activities and no patterns are dropped. -/
def removeRewriteWeek (week : Option Int) (bucketSlug titleSlug : Option String)
    (dayRaw : String) (w : WeekEntry) : WeekEntry :=
  if week != some w.week then w
  else
    let days := (w.days.map (removeRewriteDay bucketSlug titleSlug dayRaw)).filter
      (fun d => !(d.activities.getD []).isEmpty || !(d.patterns.getD []).isEmpty)
    { w with days := days }

/-- The removeTask reducer case: delete the metadata binding, parse the
week, day, bucket slug and title slug back out of the key, and rebuild the
schedule through the week and day rewrites; weeks left without days are
dropped globally. -/
def reducerRemoveTask (cat : PlanState) (key : String) : PlanState :=
  let tasks := eraseTask cat.tasks key
  let schedule := (cat.raw.schedule.map
    (removeRewriteWeek (keyWeek key) (keyBucketSlug key) (keyTitleSlug key)
      (keyDayRaw key))).filter (fun w => !w.days.isEmpty)
  { cat with raw := { cat.raw with schedule := schedule }, tasks := tasks }

/-- The addSubtask reducer case: build the new leaf (its generated
identifier, a timestamp-random string in the source, is a parameter here),
then insert under the parent when one is given and found, appending at the
root otherwise; the owning entry keeps every other field. -/
def reducerAddSubtask (cat : PlanState) (key : String) (title : String)
    (notes : Option String) (parentId : Option String) (newId : String) :
    PlanState :=
  let current := (lookupTask cat.tasks key).getD {}
  let newNode : Subtask := .mk newId title (some false) notes .nil
  let subs := addSubtaskSubs (current.subtasks.getD .nil) parentId newNode
  { cat with tasks := setTask cat.tasks key { current with subtasks := some subs } }

/-- The toggleSubtask reducer case: bail out unchanged when the entry or
its subtasks array is missing or the target id is not found; otherwise
toggle, re-propagate, and overwrite the owning entry's completed flag with
the conjunction over the new top-level subtasks (false for an empty
array). -/
def reducerToggleSubtask (cat : PlanState) (key targetId : String) :
    PlanState :=
  match lookupTask cat.tasks key with
  | none => cat
  | some current =>
      match current.subtasks with
      | none => cat
      | some l =>
          match findNode targetId l with
          | none => cat
          | some target =>
              let subs :=
                propagate (applyToggle targetId (!completedB target)
                  (!target.children.isEmpty) l)
              let parentCompleted := !subs.isEmpty && subs.all completedB
              { cat with
                  tasks := setTask cat.tasks key
                    { current with
                        completed := some parentCompleted
                        subtasks := some subs } }

/-- The removeSubtask reducer case: bail out unchanged when the entry or
its subtasks array is missing; otherwise delete the target at any depth,
re-propagate, and overwrite the owning entry's completed flag with the
conjunction over the new top-level subtasks. -/
def reducerRemoveSubtask (cat : PlanState) (key targetId : String) :
    PlanState :=
  match lookupTask cat.tasks key with
  | none => cat
  | some current =>
      match current.subtasks with
      | none => cat
      | some l =>
          let subs := propagate (removeNode targetId l)
          let parentCompleted := !subs.isEmpty && subs.all completedB
          { cat with
              tasks := setTask cat.tasks key
                { current with
                    completed := some parentCompleted
                    subtasks := some subs } }

/-- The setSubtaskNotes reducer case: bail out unchanged when the entry or
its subtasks array is missing; otherwise replace the notes of the matched
node, with no propagation. -/
def reducerSetSubtaskNotes (cat : PlanState) (key targetId notes : String) :
    PlanState :=
  match lookupTask cat.tasks key with
  | none => cat
  | some current =>
      match current.subtasks with
      | none => cat
      | some l =>
          { cat with
              tasks := setTask cat.tasks key
                { current with subtasks := some (setNotes targetId notes l) } }

/-- The renameSubtask reducer case: bail out unchanged when the entry or
its subtasks array is missing; otherwise replace the title of the matched
node, with no propagation. -/
def reducerRenameSubtask (cat : PlanState) (key targetId title : String) :
    PlanState :=
  match lookupTask cat.tasks key with
  | none => cat
  | some current =>
      match current.subtasks with
      | none => cat
      | some l =>
          { cat with
              tasks := setTask cat.tasks key
                { current with subtasks := some (renameNode targetId title l) } }

/-- A completed and total pair, as the Progress records of the source. -/
structure Progress where
  completed : Nat
  total : Nat
deriving DecidableEq

/-- A task as rendered inside a section, mirroring type SectionTask of
Tasks.tsx; an absent isPatternParent is the same as false under the
truthiness tests applied to it. -/
structure SectionTask where
  key : String
  title : String
  completed : Bool
  notes : Option String := none
  subtasks : Option Forest := none
  isPatternParent : Bool := false
deriving DecidableEq

/-- A derived section, mirroring type Section of Tasks.tsx restricted to
the fields the verified properties read; the presentation fields id,
title, dayLabel, dateLabel, dateStart and dateEnd, which are produced with
locale-dependent date formatting, are omitted. -/
structure Section where
  week : Int
  dayRaw : String
  tags : List String
  tasks : List SectionTask
  stats : Progress
deriving DecidableEq

/-- Leaf-only counting walk over a subtask forest, mirroring walkSubs in
computeStatsWithSubtasks of Tasks.tsx (and the identical countSubStats walk
of TasksProvider.tsx): nodes with children are descended into, childless
nodes count one toward the total and, when completed, one toward the
completed count. -/
def walkSubs : Forest → Progress
  | .nil => ⟨0, 0⟩
  | .cons (.mk _ _ c _ ch) rest =>
      let here :=
        if ch.isEmpty then (⟨if c.getD false then 1 else 0, 1⟩ : Progress)
        else walkSubs ch
      let restP := walkSubs rest
      ⟨here.completed + restP.completed, here.total + restP.total⟩

/-- Progress counting over a section task list, mirroring
computeStatsWithSubtasks of Tasks.tsx: a task with a nonempty subtasks
array contributes the leaf walk over it, any other task contributes itself
as a single unit. -/
def computeStatsWithSubtasks : List SectionTask → Progress
  | [] => ⟨0, 0⟩
  | t :: rest =>
      let here :=
        if (t.subtasks.getD .nil).isEmpty then
          (⟨if t.completed then 1 else 0, 1⟩ : Progress)
        else walkSubs (t.subtasks.getD .nil)
      let restP := computeStatsWithSubtasks rest
      ⟨here.completed + restP.completed, here.total + restP.total⟩

/-- Encoded id of the root node standing for a problem task under a
pattern parent. -/
def encodeProblemRootId (problemKey : String) : String := "k|" ++ problemKey

/-- Encoded id of a nested subtask under a problem task of a pattern
parent. -/
def encodeProblemSubId (problemKey subId : String) : String :=
  "k|" ++ problemKey ++ "#" ++ subId

/-- Decode an encoded subtask id, mirroring parseEncodedSubtaskId of
Tasks.tsx: ids not starting with the marker decode to none, otherwise the
part before the first hash is the problem task key and the part after it,
when a hash is present, the real subtask id. -/
def parseEncodedSubtaskId (sid : String) : Option (String × Option String) :=
  match sid.data with
  | 'k' :: '|' :: rest =>
      let before := rest.takeWhile (fun c => c != '#')
      match rest.dropWhile (fun c => c != '#') with
      | [] => some (String.mk rest, none)
      | _ :: tl => some (String.mk before, some (String.mk tl))
  | _ => none

/-- Wrap the stored subtasks of a problem task with encoded ids, mirroring
mapChildren in buildSections of Tasks.tsx (the same problem key prefixes
every depth). -/
def mapChildren (problemKey : String) : Forest → Forest
  | .nil => .nil
  | .cons (.mk i t c n ch) rest =>
      .cons (.mk (encodeProblemSubId problemKey i) t c n (mapChildren problemKey ch))
        (mapChildren problemKey rest)

/-- The synthetic subtask node standing for one problem of a pattern, from
buildSections of Tasks.tsx: keyed by the problem task key, titled with its
override when present, completed as the coerced flag of its own metadata,
its children the encoded wrap of its own stored subtasks. -/
def problemNode (tasksState : Tasks) (categoryId : String) (week : Int)
    (day : String) (pname pr : String) : Subtask :=
  let problemKey := makeTaskKey categoryId week day pname pr
  let problemMeta := (lookupTask tasksState problemKey).getD {}
  .mk (encodeProblemRootId problemKey) (problemMeta.titleOverride.getD pr)
    (some (problemMeta.completed.getD false)) problemMeta.notes
    (mapChildren problemKey (problemMeta.subtasks.getD .nil))

/-- The synthesized parent task of a pattern, from buildSections of
Tasks.tsx: keyed under the pattern bucket, completed as its own metadata
says, its subtasks the problem nodes. -/
def patternParentTask (tasksState : Tasks) (categoryId : String) (week : Int)
    (day : String) (p : Pattern) : SectionTask :=
  let problemNodes :=
    Forest.ofList (p.problems.map (problemNode tasksState categoryId week day p.name))
  let parentKey := makeTaskKey categoryId week day "pattern" p.name
  let parentMeta := (lookupTask tasksState parentKey).getD {}
  { key := parentKey, title := p.name
    completed := parentMeta.completed.getD false
    notes := parentMeta.notes
    subtasks := some problemNodes
    isPatternParent := true }

/-- A plain activity task of a day, from buildSections of Tasks.tsx: its
subtasks are its own stored metadata subtasks with no indirection. -/
def activityTask (tasksState : Tasks) (categoryId : String) (week : Int)
    (day : String) (act : String) : SectionTask :=
  let key := makeTaskKey categoryId week day "activity" act
  let meta := (lookupTask tasksState key).getD {}
  { key := key, title := act
    completed := meta.completed.getD false
    notes := meta.notes
    subtasks := meta.subtasks
    isPatternParent := false }

/-- The tag set of a day: the nonempty pattern names in order of first
appearance, as the Set insertion of buildSections collects them. -/
def dayTags (ps : List Pattern) : List String :=
  ps.foldl (fun acc p =>
    if p.name != "" && !acc.contains p.name then acc ++ [p.name] else acc) []

/-- One section per day of a week, from buildSections of Tasks.tsx:
pattern parents first, then activities, with stats computed over the built
list. -/
def buildDaySection (categoryId : String) (tasksState : Tasks) (week : Int)
    (d : DayEntry) : Section :=
  let tags := dayTags (d.patterns.getD [])
  let patternTasks :=
    (d.patterns.getD []).map (patternParentTask tasksState categoryId week d.day)
  let activityTasks :=
    (d.activities.getD []).map (activityTask tasksState categoryId week d.day)
  let tasks := patternTasks ++ activityTasks
  { week := week, dayRaw := d.day, tags := tags, tasks := tasks
    stats := computeStatsWithSubtasks tasks }

/-- Project a plan into its flat ordered section list, one per week and
day pair in schedule order, mirroring buildSections of Tasks.tsx. -/
def buildSections (categoryId : String) (plan : PlanState) : List Section :=
  (plan.raw.schedule.map (fun wk =>
    wk.days.map (buildDaySection categoryId plan.tasks wk.week))).flatten

/-- Whether the second character list occurs as a contiguous block at the
start of the first. -/
def startsWithList : List Char → List Char → Bool
  | _, [] => true
  | [], _ :: _ => false
  | c :: cs, d :: ds => c == d && startsWithList cs ds

/-- Whether the first character list occurs contiguously anywhere in the
second argument, as String.prototype.includes does. -/
def includesList (n : List Char) : List Char → Bool
  | [] => n.isEmpty
  | c :: t => startsWithList (c :: t) n || includesList n t

/-- String containment test hay.includes(needle). -/
def strIncludes (hay needle : String) : Bool := includesList needle.data hay.data

/-- String.prototype.toLowerCase modelled on basic latin letters. -/
def jsToLower (s : String) : String := String.mk (s.data.map Char.toLower)

/-- Drop a trailing run of characters satisfying the predicate. -/
def dropTrailing (p : Char → Bool) : List Char → List Char
  | [] => []
  | c :: rest =>
      match dropTrailing p rest with
      | [] => if p c then [] else [c]
      | r => c :: r

/-- String.prototype.trim: strip whitespace from both ends. -/
def jsTrim (s : String) : String :=
  String.mk (dropTrailing Char.isWhitespace (s.data.dropWhile Char.isWhitespace))

/-- The tag filter pass of the prepared memo in SectionsList of Tasks.tsx:
with no selected tag every task passes; otherwise a task passes when its
metadata tags or its section's tags contain the tag, or, for a pattern
parent, when the metadata tags of some problem behind an encoded subtask id
contain it. -/
def tagPass (plan : PlanState) (selectedTag : String) (sec : Section)
    (t : SectionTask) : Bool :=
  if selectedTag == "" then true
  else
    let metaTags := ((lookupTask plan.tasks t.key).bind TaskMeta.tags).getD []
    if metaTags.contains selectedTag || sec.tags.contains selectedTag then true
    else if t.isPatternParent then
      (t.subtasks.getD .nil).any (fun st =>
        match parseEncodedSubtaskId st.id with
        | some (problemKey, _) =>
            (((lookupTask plan.tasks problemKey).bind TaskMeta.tags).getD []).contains
              selectedTag
        | none => false)
    else false

/-- The free-text search pass of the prepared memo: case-insensitive
containment in the override-aware title, the notes, or a direct subtask
title; the query argument arrives trimmed and lowercased. -/
def searchPass (plan : PlanState) (q : String) (t : SectionTask) : Bool :=
  let title :=
    jsToLower (((lookupTask plan.tasks t.key).bind TaskMeta.titleOverride).getD t.title)
  let notes := jsToLower (t.notes.getD "")
  let subMatch := (t.subtasks.getD .nil).any (fun st => strIncludes (jsToLower st.title) q)
  strIncludes title q || strIncludes notes q || subMatch

/-- The prepared section list of SectionsList of Tasks.tsx in day view
(the grouping passes of the other view modes are skipped in day mode):
each section's tasks are filtered by tag and query with stats recomputed,
then, when a tag filter or nonempty query is active, sections left with no
tasks are dropped. -/
def preparedDayMode (categoryId : String) (plan : PlanState)
    (selectedTag query : String) : List Section :=
  let visible := buildSections categoryId plan
  let secs := visible.map (fun sec =>
    let filteredTasks := sec.tasks.filter (tagPass plan selectedTag sec)
    let q := jsToLower (jsTrim query)
    let searched :=
      if q == "" then filteredTasks else filteredTasks.filter (searchPass plan q)
    { sec with tasks := searched, stats := computeStatsWithSubtasks searched })
  let filtersActive := selectedTag != "" || jsTrim query != ""
  if filtersActive then secs.filter (fun s => !s.tasks.isEmpty) else secs

/-- The completion propagation invariant of the specification: every node
with at least one child has its coerced completed flag equal to the
conjunction of its children's coerced flags, at every depth. -/
def invForest : Forest → Bool
  | .nil => true
  | .cons (.mk _ _ c _ ch) rest =>
      (ch.isEmpty || (c.getD false == ch.all completedB)) && invForest ch &&
        invForest rest

/-- The ids and stored completed values of the leaves of a forest, in
depth-first order; used to state that propagation leaves leaf nodes with
their explicitly set values. -/
def leafVals : Forest → List (String × Option Bool)
  | .nil => []
  | .cons (.mk i _ c _ ch) rest =>
      (if ch.isEmpty then [(i, c)] else leafVals ch) ++ leafVals rest

/-- The leaf nodes of a forest in depth-first order, the unit of the
specification counting rule. -/
def leafList : Forest → List Subtask
  | .nil => []
  | .cons (.mk i t c n ch) rest =>
      (if ch.isEmpty then [Subtask.mk i t c n ch] else leafList ch) ++ leafList rest

/-- Total number of nodes of a forest at every depth. -/
def sizeForest : Forest → Nat
  | .nil => 0
  | .cons (.mk _ _ _ _ ch) rest => 1 + sizeForest ch + sizeForest rest

/-- Contribution of one section task under the counting rule as the
specification words it: a task with one or more subtasks contributes its
recursively collected leaf subtask nodes, a task with none contributes one
unit, completed when the task is. -/
def specTaskStats (t : SectionTask) : Progress :=
  if (t.subtasks.getD .nil).isEmpty then ⟨if t.completed then 1 else 0, 1⟩
  else
    ⟨(leafList (t.subtasks.getD .nil)).countP completedB,
      (leafList (t.subtasks.getD .nil)).length⟩

/-- Sum of the per-task specification contributions over a task list. -/
def specStats (tasks : List SectionTask) : Progress :=
  tasks.foldr (fun t acc =>
    ⟨(specTaskStats t).completed + acc.completed,
      (specTaskStats t).total + acc.total⟩) ⟨0, 0⟩

/-- The owner-completion rule applied after subtask mutations: at least one
top-level subtask and all of them completed. -/
def ownerCompleted (subs : Forest) : Prop :=
  subs ≠ .nil ∧ ∀ s ∈ subs.toList, completedB s = true

instance (subs : Forest) : Decidable (ownerCompleted subs) := by
  unfold ownerCompleted; infer_instance

/-- A reachable subtask tree that violates the propagation invariant (a
completed parent over an incomplete leaf, as an insert can produce). -/
def exTreeC1 : Forest :=
  .cons (.mk "a" "a" (some true) none
    (.cons (.mk "b" "b" (some false) none .nil) .nil)) .nil

/-- Synthetic parent key of the pattern of end-to-end scenario B. -/
def parentKeyC2 : String := makeTaskKey "cat" 1 "1" "pattern" "Two Pointers"

/-- Resolved problem key of the first problem of scenario B. -/
def problemKeyC2a : String := makeTaskKey "cat" 1 "1" "Two Pointers" "Two Sum"

/-- Resolved problem key of the second problem of scenario B. -/
def problemKeyC2b : String := makeTaskKey "cat" 1 "1" "Two Pointers" "3Sum"

/-- Plan of end-to-end scenario B: one pattern with two problems, both
problem metadata entries present and incomplete. -/
def exPlanC2 : PlanState :=
  { title := "plan"
    raw := { title := "plan"
             schedule := [{ week := 1
                            days := [{ day := "1"
                                       patterns := some [{ name := "Two Pointers"
                                                           problems := ["Two Sum", "3Sum"] }] }] }] }
    tasks := [(problemKeyC2a, { completed := some false }),
              (problemKeyC2b, { completed := some false })] }

/-- Two completed leaf subtasks. -/
def exSubsC3 : Forest :=
  .cons (.mk "a" "a" (some true) none .nil)
    (.cons (.mk "b" "b" (some true) none .nil) .nil)

/-- Plan state with one task whose metadata is completed over two completed
leaf subtasks. -/
def exPlanC3 : PlanState :=
  { title := "plan"
    raw := { title := "plan", schedule := [] }
    tasks := [("k", { completed := some true, subtasks := some exSubsC3 })] }

/-- Task key of the activity removed in the removeTask examples. -/
def keyC5 : String := makeTaskKey "cat" 1 "1" "activity" "A"

/-- Plan whose schedule holds the removed activity in week one and a
pre-existing zero-problem pattern in week two. -/
def exPlanC5 : PlanState :=
  { title := "plan"
    raw := { title := "plan"
             schedule := [{ week := 1
                            days := [{ day := "1", activities := some ["A"] }] },
                          { week := 2
                            days := [{ day := "1"
                                       patterns := some [{ name := "P", problems := [] }] }] }] }
    tasks := [(keyC5, { completed := some false })] }

/-- Plan with two activities on the same day, one of which is removed. -/
def exPlanC5W : PlanState :=
  { title := "plan"
    raw := { title := "plan"
             schedule := [{ week := 1
                            days := [{ day := "1", activities := some ["A", "B"] }] }]
           }
    tasks := [] }

/-- The day of the witness plan after the removal: only the second
activity remains. -/
def exDayC5W : DayEntry := { day := "1", activities := some ["B"] }

/-- The week of the witness plan after the removal. -/
def exWeekC5W : WeekEntry := { week := 1, days := [exDayC5W] }

/-- A tree whose single root node carries the empty string as id. -/
def exTreeC6 : Forest := .cons (.mk "" "n" (some false) none .nil) .nil

/-- The fresh node inserted in the addSubtask examples. -/
def exNodeC6 : Subtask := .mk "x1" "t" (some false) none .nil

/-- A two-level tree used to show the insert searches below the roots. -/
def exTreeC6W : Forest :=
  .cons (.mk "r" "r" (some false) none
    (.cons (.mk "p" "p" (some false) none .nil) .nil)) .nil

/-- Plan with one pattern tag and one tagged problem metadata entry; the
tag used in the filter example occurs nowhere in it. -/
def exPlanC7 : PlanState :=
  { title := "plan"
    raw := { title := "plan"
             schedule := [{ week := 1
                            days := [{ day := "1"
                                       patterns := some [{ name := "DP", problems := ["P1"] }]
                                       activities := some ["Read"] }] }] }
    tasks := [(makeTaskKey "cat" 1 "1" "DP" "P1", { tags := some ["DP"] })] }

/-- Plan state with a completed task over a single incomplete leaf subtask
(reachable by adding a subtask to a completed task). -/
def exPlanC8 : PlanState :=
  { title := "plan"
    raw := { title := "plan", schedule := [] }
    tasks := [("k", { completed := some true
                      subtasks := some (.cons (.mk "a" "a" (some false) none .nil) .nil) })] }

/-- A completed parent subtask with one completed child. -/
def exSubsC10 : Forest :=
  .cons (.mk "p" "p" (some true) none
    (.cons (.mk "c" "c" (some true) none .nil) .nil)) .nil

/-- Plan state with a completed task over a completed parent subtask with
one completed child. -/
def exPlanC10 : PlanState :=
  { title := "plan"
    raw := { title := "plan", schedule := [] }
    tasks := [("k", { completed := some true, subtasks := some exSubsC10 })] }

/-- Induction over forests descending both into children and into later
siblings. -/
theorem Forest.deepInduction {P : Forest → Prop} (h0 : P .nil)
    (h1 : ∀ i t c n ch rest, P ch → P rest → P (.cons (.mk i t c n ch) rest)) :
    ∀ f, P f
  | .nil => h0
  | .cons (.mk i t c n ch) rest =>
      h1 i t c n ch rest (Forest.deepInduction h0 h1 ch)
        (Forest.deepInduction h0 h1 rest)

theorem Forest.isEmpty_iff {f : Forest} : f.isEmpty = true ↔ f = .nil := by
  cases f <;> simp [Forest.isEmpty]

theorem Forest.all_iff {p : Subtask → Bool} {f : Forest} :
    f.all p = true ↔ ∀ s ∈ f.toList, p s = true := by
  induction f using Forest.deepInduction with
  | h0 => simp [Forest.all, Forest.toList]
  | h1 i t c n ch rest ih1 ih2 =>
      simp [Forest.all, Forest.toList, ih2]

theorem propagate_eq_nil_iff {f : Forest} : propagate f = .nil ↔ f = .nil := by
  cases f with
  | nil => simp [propagate]
  | cons s rest => cases s; simp [propagate]

/-- Propagation establishes the completion invariant everywhere. -/
theorem invForest_propagate (f : Forest) : invForest (propagate f) = true := by
  induction f using Forest.deepInduction with
  | h0 => simp [propagate, invForest]
  | h1 i t c n ch rest ih1 ih2 =>
      by_cases hch : (propagate ch).isEmpty = true
      · rw [Forest.isEmpty_iff] at hch
        simp [propagate, hch, invForest, Forest.isEmpty, ih2]
      · simp only [propagate]
        rw [if_neg hch]
        simp [invForest, hch, ih1, ih2]

/-- Propagation does not touch the ids or the stored completed values of
leaf nodes. -/
theorem leafVals_propagate (f : Forest) : leafVals (propagate f) = leafVals f := by
  induction f using Forest.deepInduction with
  | h0 => simp [propagate, leafVals]
  | h1 i t c n ch rest ih1 ih2 =>
      by_cases hch : (propagate ch).isEmpty = true
      · rw [Forest.isEmpty_iff] at hch
        have hch0 : ch = .nil := propagate_eq_nil_iff.mp hch
        simp [propagate, hch, hch0, leafVals, Forest.isEmpty, ih2]
      · have hch0 : ¬ch.isEmpty = true := by
          intro h
          exact hch (by rw [Forest.isEmpty_iff.mp h]; simp [propagate, Forest.isEmpty])
        simp only [propagate]
        rw [if_neg hch]
        simp [leafVals, hch, hch0, ih1, ih2]

/-- C1 (amended): after removeSubtask with any target id, and after
toggleSubtask whose target id occurs in the tree, every node with at least
one child has completed equal to the conjunction of its children's
completed flags, computed bottom-up over the whole tree, while leaf nodes
keep the completed values they carried going into propagation. -/
theorem subtree_invariant_after_toggle_remove :
    (∀ l tid, occursForest tid l = true → invForest (toggleSubtaskSubs l tid) = true) ∧
    (∀ l tid, invForest (removeSubtaskSubs l tid) = true) ∧
    (∀ l, leafVals (propagate l) = leafVals l) := by
  refine ⟨fun l tid hocc => ?_, fun l tid => invForest_propagate _, leafVals_propagate⟩
  unfold toggleSubtaskSubs
  unfold occursForest at hocc
  cases hfind : findNode tid l with
  | none => rw [hfind] at hocc; simp [Option.isSome] at hocc
  | some target => exact invForest_propagate _

/-- C1 witness: the amended statement applied to a concrete tree with a
found target, a missing removal target, and the leaf preservation fact. -/
theorem subtree_invariant_witness :
    invForest (toggleSubtaskSubs exTreeC1 "b") = true ∧
    invForest (removeSubtaskSubs exTreeC1 "q") = true ∧
    leafVals (propagate exTreeC1) = leafVals exTreeC1 :=
  ⟨subtree_invariant_after_toggle_remove.1 exTreeC1 "b" (by decide),
   subtree_invariant_after_toggle_remove.2.1 exTreeC1 "q",
   subtree_invariant_after_toggle_remove.2.2 exTreeC1⟩

/-- C1 counterexample: a toggle whose target id occurs nowhere returns the
tree unchanged, so a reachable tree violating the invariant still violates
it afterwards, against the claim's quantification over every target id. -/
theorem subtree_invariant_counterexample :
    toggleSubtaskSubs exTreeC1 "zzz" = exTreeC1 ∧
    invForest (toggleSubtaskSubs exTreeC1 "zzz") = false := by decide

theorem lookupTask_setTask_self (tasks : Tasks) (key : String) (v : TaskMeta) :
    lookupTask (setTask tasks key v) key = some v := by
  induction tasks with
  | nil => simp [setTask, lookupTask]
  | cons kv rest ih =>
      obtain ⟨k, m⟩ := kv
      by_cases h : (k == key) = true
      · simp [setTask, lookupTask, h]
      · simp only [setTask]
        rw [if_neg h]
        simp only [lookupTask]
        rw [if_neg h]
        exact ih

theorem lookupTask_setTask_other (tasks : Tasks) (key k' : String) (v : TaskMeta)
    (hne : k' ≠ key) :
    lookupTask (setTask tasks key v) k' = lookupTask tasks k' := by
  induction tasks with
  | nil =>
      simp only [setTask, lookupTask]
      rw [if_neg (by simpa using fun h => hne h.symm)]
  | cons kv rest ih =>
      obtain ⟨k, m⟩ := kv
      by_cases h : (k == key) = true
      · have hk : k = key := by simpa using h
        have hkk : ¬((k == k') = true) := by
          simp only [beq_iff_eq, hk]
          exact fun hh => hne hh.symm
        simp only [setTask]
        rw [if_pos h]
        simp only [lookupTask]
        rw [if_neg hkk, if_neg hkk]
      · simp only [setTask]
        rw [if_neg h]
        simp only [lookupTask]
        by_cases h2 : (k == k') = true
        · rw [if_pos h2, if_pos h2]
        · rw [if_neg h2, if_neg h2]
          exact ih

/-- C2 (amended): the toggle operation applied to the pattern's synthetic
parent key updates only the metadata stored under that key and leaves every
other key, in particular each problem's own resolved key, untouched; both
underlying problem metadata entries are set to completed by applying the
toggle to each resolved problem key independently. -/
theorem toggleTask_parent_and_problem_keys :
    (∀ (cat : PlanState) (key k' : String), k' ≠ key →
      lookupTask (reducerToggleTask cat key).tasks k' = lookupTask cat.tasks k') ∧
    (∀ (cat : PlanState) (k1 k2 : String), k1 ≠ k2 →
      ((lookupTask cat.tasks k1).bind TaskMeta.completed).getD false = false →
      ((lookupTask cat.tasks k2).bind TaskMeta.completed).getD false = false →
      ((lookupTask (reducerToggleTask (reducerToggleTask cat k1) k2).tasks k1).bind
        TaskMeta.completed) = some true ∧
      ((lookupTask (reducerToggleTask (reducerToggleTask cat k1) k2).tasks k2).bind
        TaskMeta.completed) = some true) := by
  have frame : ∀ (cat : PlanState) (key k' : String), k' ≠ key →
      lookupTask (reducerToggleTask cat key).tasks k' = lookupTask cat.tasks k' := by
    intro cat key k' hne
    unfold reducerToggleTask
    exact lookupTask_setTask_other _ _ _ _ hne
  have self : ∀ (cat : PlanState) (k : String),
      ((lookupTask cat.tasks k).bind TaskMeta.completed).getD false = false →
      ((lookupTask (reducerToggleTask cat k).tasks k).bind TaskMeta.completed) =
        some true := by
    intro cat k hk
    unfold reducerToggleTask
    rw [lookupTask_setTask_self]
    simp [hk]
  refine ⟨frame, fun cat k1 k2 hne h1 h2 => ⟨?_, ?_⟩⟩
  · rw [frame _ k2 k1 hne]
    exact self cat k1 h1
  · refine self _ k2 ?_
    rw [frame _ k1 k2 (fun h => hne h.symm)]
    exact h2

/-- C2 witness: on the scenario B plan, toggling the two resolved problem
keys independently completes both problem metadata entries. -/
theorem toggleTask_problem_keys_witness :
    ((lookupTask (reducerToggleTask (reducerToggleTask exPlanC2 problemKeyC2a)
        problemKeyC2b).tasks problemKeyC2a).bind TaskMeta.completed) = some true ∧
    ((lookupTask (reducerToggleTask (reducerToggleTask exPlanC2 problemKeyC2a)
        problemKeyC2b).tasks problemKeyC2b).bind TaskMeta.completed) = some true :=
  toggleTask_parent_and_problem_keys.2 exPlanC2 problemKeyC2a problemKeyC2b
    (by decide) (by decide) (by decide)

/-- C2 counterexample: toggling the pattern's synthetic parent key leaves
both underlying problem metadata entries incomplete. -/
theorem pattern_parent_toggle_counterexample :
    ((lookupTask (reducerToggleTask exPlanC2 parentKeyC2).tasks problemKeyC2a).bind
      TaskMeta.completed) = some false ∧
    ((lookupTask (reducerToggleTask exPlanC2 parentKeyC2).tasks problemKeyC2b).bind
      TaskMeta.completed) = some false := by decide

theorem ownerCompleted_eq (subs : Forest) :
    (!subs.isEmpty && subs.all completedB) = decide (ownerCompleted subs) := by
  by_cases h : ownerCompleted subs
  · rw [decide_eq_true h]
    obtain ⟨h1, h2⟩ := h
    have he : subs.isEmpty = false := by
      cases subs with
      | nil => exact absurd rfl h1
      | cons s r => rfl
    rw [he, Forest.all_iff.mpr h2]
    rfl
  · rw [decide_eq_false h]
    unfold ownerCompleted at h
    push_neg at h
    by_cases he : subs.isEmpty = true
    · rw [he]; rfl
    · have hne : subs ≠ .nil := fun hh => he (Forest.isEmpty_iff.mpr hh)
      obtain ⟨s, hs, hsc⟩ := h hne
      have : subs.all completedB = false := by
        cases hall : subs.all completedB with
        | false => rfl
        | true => exact absurd (Forest.all_iff.mp hall s hs) hsc
      rw [this]
      simp

/-- C3 (amended): after toggleSubtask with a found target, and after
removeSubtask whenever the entry and its subtasks array exist, the owning
task's completed flag is overwritten with the recomputed rule: true
exactly when the new subtask list is nonempty and every top-level subtask
is completed, and false otherwise — it is not left at its previous value
in the otherwise case. -/
theorem owner_flag_recomputed (cat : PlanState) (key tid : String)
    (current : TaskMeta) (l : Forest)
    (h1 : lookupTask cat.tasks key = some current)
    (h2 : current.subtasks = some l) :
    (occursForest tid l = true →
      lookupTask (reducerToggleSubtask cat key tid).tasks key =
        some { current with
                 completed := some (decide (ownerCompleted (toggleSubtaskSubs l tid)))
                 subtasks := some (toggleSubtaskSubs l tid) }) ∧
    lookupTask (reducerRemoveSubtask cat key tid).tasks key =
      some { current with
               completed := some (decide (ownerCompleted (removeSubtaskSubs l tid)))
               subtasks := some (removeSubtaskSubs l tid) } := by
  constructor
  · intro hocc
    unfold occursForest at hocc
    cases hfind : findNode tid l with
    | none => rw [hfind] at hocc; simp [Option.isSome] at hocc
    | some target =>
        have hts : toggleSubtaskSubs l tid =
            propagate (applyToggle tid (!completedB target)
              (!target.children.isEmpty) l) := by
          unfold toggleSubtaskSubs
          rw [hfind]
        simp only [reducerToggleSubtask, h1, h2, hfind]
        rw [lookupTask_setTask_self, hts, ownerCompleted_eq]
  · have hrs : removeSubtaskSubs l tid = propagate (removeNode tid l) := rfl
    simp only [reducerRemoveSubtask, h1, h2]
    rw [lookupTask_setTask_self, hrs, ownerCompleted_eq]

/-- C3 witness: the amended statement applied to the concrete completed
task over two completed leaves, with the first leaf toggled off. -/
theorem owner_flag_recomputed_witness :
    lookupTask (reducerToggleSubtask exPlanC3 "k" "a").tasks "k" =
      some { completed := some (decide (ownerCompleted (toggleSubtaskSubs exSubsC3 "a")))
             subtasks := some (toggleSubtaskSubs exSubsC3 "a") } :=
  (owner_flag_recomputed exPlanC3 "k" "a"
    { completed := some true, subtasks := some exSubsC3 } exSubsC3
    (by decide) rfl).1 (by decide)

/-- C3 counterexample: the owning task was completed, one subtask is
toggled off, and the flag is overwritten to false instead of being left
unchanged at true as the claim requires. -/
theorem owner_flag_counterexample :
    ((lookupTask exPlanC3.tasks "k").bind TaskMeta.completed) = some true ∧
    ((lookupTask (reducerToggleSubtask exPlanC3 "k" "a").tasks "k").bind
      TaskMeta.completed) = some false := by decide

/-- The leaf walk counts exactly the leaves collected at every depth. -/
theorem walkSubs_eq_leafList (f : Forest) :
    walkSubs f = ⟨(leafList f).countP completedB, (leafList f).length⟩ := by
  induction f using Forest.deepInduction with
  | h0 => simp [walkSubs, leafList]
  | h1 i t c n ch rest ih1 ih2 =>
      by_cases hch : ch.isEmpty = true
      · simp only [walkSubs, leafList, hch, if_true, ih2, List.countP_cons,
          List.length_cons, List.singleton_append, completedB, Subtask.completed,
          Progress.mk.injEq]
        refine ⟨Nat.add_comm _ _, Nat.add_comm _ _⟩
      · simp only [walkSubs, leafList, hch, if_false, ih1, ih2,
          List.countP_append, List.length_append, Progress.mk.injEq]
        exact ⟨rfl, rfl⟩

/-- C4: computeStatsWithSubtasks realizes the specification counting rule:
a task with one or more subtasks contributes exactly its leaf subtask
nodes at every depth (completed leaves to completed, all leaves to total,
internal nodes nothing), and a task with zero subtasks contributes one to
total and one to completed exactly when it is itself completed. -/
theorem computeStats_leaf_rule (tasks : List SectionTask) :
    computeStatsWithSubtasks tasks = specStats tasks := by
  induction tasks with
  | nil => rfl
  | cons t rest ih =>
      have hs : specStats (t :: rest) =
          ⟨(specTaskStats t).completed + (specStats rest).completed,
            (specTaskStats t).total + (specStats rest).total⟩ := rfl
      rw [hs, ← ih]
      by_cases h : (t.subtasks.getD .nil).isEmpty = true
      · simp [computeStatsWithSubtasks, specTaskStats, h]
      · simp [computeStatsWithSubtasks, specTaskStats, h, walkSubs_eq_leafList]

theorem sod_toLower (c : Char) (h : isSlugChar c = true ∨ c = '-') :
    Char.toLower c = c := by
  have hn : ¬(c.toNat ≥ 65 ∧ c.toNat ≤ 90) := by
    rcases h with h | h
    · simp only [isSlugChar, Bool.or_eq_true, Bool.and_eq_true,
        decide_eq_true_eq] at h
      omega
    · subst h; decide
  simp only [Char.toLower]
  rw [if_neg hn]

theorem mem_slugCollapse_sod (l : List Char) : ∀ (p : Bool) (c : Char),
    c ∈ slugCollapse l p → isSlugChar c = true ∨ c = '-' := by
  induction l with
  | nil => intro p c h; simp [slugCollapse] at h
  | cons a rest ih =>
      intro p c h
      simp only [slugCollapse] at h
      by_cases ha : isSlugChar a = true
      · rw [if_pos ha] at h
        rcases List.mem_cons.mp h with h | h
        · subst h; exact Or.inl ha
        · exact ih false c h
      · rw [if_neg ha] at h
        cases p with
        | true => exact ih true c (by simpa using h)
        | false =>
            rcases List.mem_cons.mp (by simpa using h) with h | h
            · exact Or.inr h
            · exact ih true c h

theorem slugCollapse_true_ne_dash (l : List Char) :
    ∀ t, slugCollapse l true ≠ '-' :: t := by
  induction l with
  | nil => intro t h; simp [slugCollapse] at h
  | cons a rest ih =>
      intro t h
      simp only [slugCollapse] at h
      by_cases ha : isSlugChar a = true
      · rw [if_pos ha] at h
        injection h with h1 h2
        rw [h1] at ha
        exact absurd ha (by decide)
      · rw [if_neg ha] at h
        exact ih t (by simpa using h)

theorem noDD_tail {c : Char} {X : List Char} (h : noDD (c :: X) = true) :
    noDD X = true := by
  cases X with
  | nil => rfl
  | cons b xs =>
      simp only [noDD, Bool.and_eq_true] at h
      exact h.2

theorem noDD_cons {c : Char} {X : List Char}
    (h : (c == '-') = false ∨ ∀ t, X ≠ '-' :: t) (hX : noDD X = true) :
    noDD (c :: X) = true := by
  cases X with
  | nil => rfl
  | cons b xs =>
      simp only [noDD, Bool.and_eq_true]
      refine ⟨?_, hX⟩
      rcases h with h | h
      · simp [h]
      · have hb : b ≠ '-' := fun hbe => h xs (by rw [hbe])
        simp [hb]

theorem noDD_slugCollapse (l : List Char) : ∀ p, noDD (slugCollapse l p) = true := by
  induction l with
  | nil => intro p; rfl
  | cons a rest ih =>
      intro p
      simp only [slugCollapse]
      by_cases ha : isSlugChar a = true
      · rw [if_pos ha]
        refine noDD_cons (Or.inl ?_) (ih false)
        cases hae : (a == '-') with
        | false => rfl
        | true =>
            have hd : a = '-' := by simpa using hae
            rw [hd] at ha
            exact absurd ha (by decide)
      · rw [if_neg ha]
        cases p with
        | true => simpa using ih true
        | false =>
            simp only [Bool.false_eq_true, if_false]
            exact noDD_cons (Or.inr (slugCollapse_true_ne_dash rest)) (ih true)

theorem noDD_head_dash {X : List Char} (h : noDD ('-' :: X) = true) :
    ∀ t, X ≠ '-' :: t := by
  intro t ht
  rw [ht] at h
  simp [noDD] at h

theorem slugCollapse_id (l : List Char) :
    (∀ c ∈ l, isSlugChar c = true ∨ c = '-') → noDD l = true →
    slugCollapse l false = l ∧ ((∀ t, l ≠ '-' :: t) → slugCollapse l true = l) := by
  induction l with
  | nil => exact fun _ _ => ⟨rfl, fun _ => rfl⟩
  | cons a rest ih =>
      intro hsod hdd
      have hsodr : ∀ c ∈ rest, isSlugChar c = true ∨ c = '-' :=
        fun c hc => hsod c (List.mem_cons_of_mem _ hc)
      obtain ⟨ih1, ih2⟩ := ih hsodr (noDD_tail hdd)
      rcases hsod a (List.mem_cons_self _ _) with ha | ha
      · constructor
        · simp only [slugCollapse]
          rw [if_pos ha, ih1]
        · intro _
          simp only [slugCollapse]
          rw [if_pos ha, ih1]
      · subst ha
        have hrest : ∀ t, rest ≠ '-' :: t := noDD_head_dash hdd
        constructor
        · simp only [slugCollapse]
          rw [if_neg (by decide : ¬isSlugChar '-' = true)]
          simp only [Bool.false_eq_true, if_false]
          rw [ih2 hrest]
        · intro hno
          exact absurd rfl (hno rest)

theorem noDD_dropWhile {p : Char → Bool} {l : List Char} (h : noDD l = true) :
    noDD (l.dropWhile p) = true := by
  induction l with
  | nil => exact h
  | cons c rest ih =>
      rw [List.dropWhile_cons]
      by_cases hc : p c = true
      · rw [if_pos hc]
        exact ih (noDD_tail h)
      · rw [if_neg hc]
        exact h

theorem dropWhile_dash_ne (l : List Char) :
    ∀ t, l.dropWhile (fun c => c == '-') ≠ '-' :: t := by
  induction l with
  | nil => intro t h; simp at h
  | cons c rest ih =>
      intro t h
      rw [List.dropWhile_cons] at h
      by_cases hc : (c == '-') = true
      · rw [if_pos hc] at h
        exact ih t h
      · rw [if_neg hc] at h
        injection h with h1 h2
        rw [h1] at hc
        exact hc (by decide)

theorem dropWhile_dash_eq_self {l : List Char} (h : ∀ t, l ≠ '-' :: t) :
    l.dropWhile (fun c => c == '-') = l := by
  cases l with
  | nil => rfl
  | cons c rest =>
      rw [List.dropWhile_cons]
      have hc : (c == '-') ≠ true := by
        intro hc
        have hce : c = '-' := by simpa using hc
        exact h rest (by rw [hce])
      rw [if_neg hc]

theorem mem_stripEnd {c : Char} : ∀ {l : List Char}, c ∈ stripEnd l → c ∈ l := by
  intro l
  induction l with
  | nil => intro h; exact h
  | cons a rest ih =>
      intro h
      simp only [stripEnd] at h
      cases hs : stripEnd rest with
      | nil =>
          rw [hs] at h
          by_cases ha : (a == '-') = true
          · rw [if_pos ha] at h
            simp at h
          · rw [if_neg ha] at h
            simp only [List.mem_singleton] at h
            subst h
            exact List.mem_cons_self _ _
      | cons y ys =>
          rw [hs] at h
          rcases List.mem_cons.mp h with h | h
          · subst h; exact List.mem_cons_self _ _
          · exact List.mem_cons_of_mem _ (ih (hs ▸ h))

theorem stripEnd_head : ∀ {l : List Char} {y : Char} {ys : List Char},
    stripEnd l = y :: ys → ∃ ys', l = y :: ys' := by
  intro l
  induction l with
  | nil => intro y ys h; exact absurd h (by simp [stripEnd])
  | cons a rest ih =>
      intro y ys h
      simp only [stripEnd] at h
      cases hs : stripEnd rest with
      | nil =>
          rw [hs] at h
          by_cases ha : (a == '-') = true
          · rw [if_pos ha] at h
            exact absurd h (by simp)
          · rw [if_neg ha] at h
            injection h with h1 h2
            exact ⟨rest, by rw [h1]⟩
      | cons z zs =>
          rw [hs] at h
          injection h with h1 h2
          exact ⟨rest, by rw [h1]⟩

theorem noDD_stripEnd : ∀ {l : List Char}, noDD l = true → noDD (stripEnd l) = true := by
  intro l
  induction l with
  | nil => intro h; exact h
  | cons a rest ih =>
      intro h
      simp only [stripEnd]
      cases hs : stripEnd rest with
      | nil =>
          by_cases ha : (a == '-') = true
          · rw [if_pos ha]; rfl
          · rw [if_neg ha]; rfl
      | cons y ys =>
          refine noDD_cons ?_ (hs ▸ ih (noDD_tail h))
          by_cases ha : (a == '-') = true
          · refine Or.inr ?_
            intro t ht
            injection ht with h1 h2
            obtain ⟨ys', hrest⟩ := stripEnd_head (hs.trans (by rw [h1]))
            have hae : a = '-' := by simpa using ha
            rw [hae] at h
            exact noDD_head_dash h ys' hrest
          · exact Or.inl (by simpa using ha)

theorem endsDash_stripEnd (l : List Char) : endsDash (stripEnd l) = false := by
  induction l with
  | nil => rfl
  | cons a rest ih =>
      simp only [stripEnd]
      cases hs : stripEnd rest with
      | nil =>
          by_cases ha : (a == '-') = true
          · rw [if_pos ha]; rfl
          · rw [if_neg ha]
            simp only [endsDash]
            simpa using ha
      | cons y ys =>
          rw [hs] at ih
          simpa [endsDash] using ih

theorem stripEnd_eq_self : ∀ {l : List Char}, endsDash l = false → stripEnd l = l := by
  intro l
  induction l with
  | nil => intro _; rfl
  | cons a rest ih =>
      intro h
      cases rest with
      | nil =>
          simp only [endsDash] at h
          simp only [stripEnd]
          rw [if_neg (by simp [h])]
      | cons b xs =>
          have hr : endsDash (b :: xs) = false := by simpa [endsDash] using h
          have hstep : stripEnd (b :: xs) = b :: xs := ih hr
          have hgoal : stripEnd (a :: b :: xs) =
              match stripEnd (b :: xs) with
              | [] => if (a == '-') = true then [] else [a]
              | r => a :: r := rfl
          rw [hgoal, hstep]

theorem stripEnd_ne_dash {l : List Char} (h : ∀ t, l ≠ '-' :: t) :
    ∀ t, stripEnd l ≠ '-' :: t := by
  intro t ht
  obtain ⟨ys', hl⟩ := stripEnd_head ht
  exact h ys' hl

theorem slugList_clean (l : List Char) :
    (∀ c ∈ slugList l, isSlugChar c = true ∨ c = '-') ∧
    noDD (slugList l) = true ∧
    (∀ t, slugList l ≠ '-' :: t) ∧
    endsDash (slugList l) = false := by
  unfold slugList
  refine ⟨?_, ?_, ?_, endsDash_stripEnd _⟩
  · intro c hc
    exact mem_slugCollapse_sod _ _ _
      ((List.dropWhile_sublist _).subset (mem_stripEnd hc))
  · exact noDD_stripEnd (noDD_dropWhile (noDD_slugCollapse _ _))
  · exact stripEnd_ne_dash (dropWhile_dash_ne _)

theorem slugList_idem (l : List Char) : slugList (slugList l) = slugList l := by
  obtain ⟨hsod, hdd, hhead, hend⟩ := slugList_clean l
  conv_lhs => rw [slugList]
  have hmap : (slugList l).map Char.toLower = slugList l := by
    conv_rhs => rw [← List.map_id (slugList l)]
    exact List.map_congr_left (fun c hc => sod_toLower c (hsod c hc))
  rw [hmap, (slugCollapse_id _ hsod hdd).1, dropWhile_dash_eq_self hhead,
    stripEnd_eq_self hend]

/-- C9: the slug function (lowercase, collapse runs outside the class of
lowercase letters and digits to single dashes, strip boundary dashes) is a
total function on strings and is idempotent. -/
theorem slug_idempotent (s : String) : slug (slug s) = slug s := by
  unfold slug
  have hdata : (String.mk (slugList s.data)).data = slugList s.data := rfl
  rw [hdata, slugList_idem]

theorem setTask_eq_self {tasks : Tasks} {key : String} {v : TaskMeta}
    (h : lookupTask tasks key = some v) : setTask tasks key v = tasks := by
  induction tasks with
  | nil => simp [lookupTask] at h
  | cons kv rest ih =>
      obtain ⟨k, m⟩ := kv
      by_cases hk : (k == key) = true
      · simp only [lookupTask] at h
        rw [if_pos hk] at h
        injection h with h
        simp only [setTask]
        rw [if_pos hk, h]
      · simp only [lookupTask] at h
        rw [if_neg hk] at h
        simp only [setTask]
        rw [if_neg hk, ih h]

theorem occursForest_cons {tid i t : String} {c : Option Bool}
    {n : Option String} {ch rest : Forest} :
    occursForest tid (.cons (.mk i t c n ch) rest) =
      ((i == tid) || occursForest tid ch || occursForest tid rest) := by
  simp only [occursForest, findNode]
  by_cases hi : (i == tid) = true
  · rw [if_pos hi, hi]
    rfl
  · rw [if_neg hi]
    cases hch : findNode tid ch with
    | some f => simp [hch, Bool.eq_false_iff.mpr hi]
    | none => simp [hch, Bool.eq_false_iff.mpr hi]

theorem occursForest_cons_false {tid i t : String} {c : Option Bool}
    {n : Option String} {ch rest : Forest}
    (h : occursForest tid (.cons (.mk i t c n ch) rest) = false) :
    (i == tid) = false ∧ occursForest tid ch = false ∧
      occursForest tid rest = false := by
  rw [occursForest_cons] at h
  simp only [Bool.or_eq_false_iff] at h
  exact ⟨h.1.1, h.1.2, h.2⟩

theorem setNotes_not_found {tid nn : String} : ∀ {l : Forest},
    occursForest tid l = false → setNotes tid nn l = l := by
  intro l
  induction l using Forest.deepInduction with
  | h0 => intro _; rfl
  | h1 i t c n ch rest ih1 ih2 =>
      intro h
      obtain ⟨hi, hch, hrest⟩ := occursForest_cons_false h
      simp only [setNotes]
      rw [if_neg (by simp [hi]), ih1 hch, ih2 hrest]

theorem renameNode_not_found {tid nn : String} : ∀ {l : Forest},
    occursForest tid l = false → renameNode tid nn l = l := by
  intro l
  induction l using Forest.deepInduction with
  | h0 => intro _; rfl
  | h1 i t c n ch rest ih1 ih2 =>
      intro h
      obtain ⟨hi, hch, hrest⟩ := occursForest_cons_false h
      simp only [renameNode]
      rw [if_neg (by simp [hi]), ih1 hch, ih2 hrest]

theorem removeNode_not_found {tid : String} : ∀ {l : Forest},
    occursForest tid l = false → removeNode tid l = l := by
  intro l
  induction l using Forest.deepInduction with
  | h0 => intro _; rfl
  | h1 i t c n ch rest ih1 ih2 =>
      intro h
      obtain ⟨hi, hch, hrest⟩ := occursForest_cons_false h
      simp only [removeNode]
      rw [if_neg (by simp [hi]), ih1 hch, ih2 hrest]

/-- C8 (amended): toggleSubtask, setSubtaskNotes and renameSubtask with a
target id that occurs nowhere in the addressed task's subtask tree return
the state unchanged (and, being total functions, never throw); removeSubtask
with an unknown id deletes no node, but unlike the others it still
reapplies bottom-up propagation and overwrites the owning task's completed
flag, so it need not return the state unchanged. -/
theorem unknown_target_ops :
    (∀ (cat : PlanState) (key tid : String),
      occursForest tid (((lookupTask cat.tasks key).bind TaskMeta.subtasks).getD .nil) =
        false →
      reducerToggleSubtask cat key tid = cat) ∧
    (∀ (cat : PlanState) (key tid notes : String),
      occursForest tid (((lookupTask cat.tasks key).bind TaskMeta.subtasks).getD .nil) =
        false →
      reducerSetSubtaskNotes cat key tid notes = cat) ∧
    (∀ (cat : PlanState) (key tid title : String),
      occursForest tid (((lookupTask cat.tasks key).bind TaskMeta.subtasks).getD .nil) =
        false →
      reducerRenameSubtask cat key tid title = cat) ∧
    (∀ (l : Forest) (tid : String), occursForest tid l = false →
      removeNode tid l = l) := by
  refine ⟨?_, ?_, ?_, fun l tid h => removeNode_not_found h⟩
  · intro cat key tid h
    cases hl : lookupTask cat.tasks key with
    | none => simp [reducerToggleSubtask, hl]
    | some current =>
        cases hsub : current.subtasks with
        | none => simp [reducerToggleSubtask, hl, hsub]
        | some l =>
            rw [hl] at h
            simp only [Option.some_bind] at h
            rw [hsub] at h
            simp only [Option.getD_some] at h
            have hfind : findNode tid l = none := by
              unfold occursForest at h
              cases hf : findNode tid l with
              | none => rfl
              | some tg => rw [hf] at h; simp at h
            simp [reducerToggleSubtask, hl, hsub, hfind]
  · intro cat key tid notes h
    cases hl : lookupTask cat.tasks key with
    | none => simp [reducerSetSubtaskNotes, hl]
    | some current =>
        cases hsub : current.subtasks with
        | none => simp [reducerSetSubtaskNotes, hl, hsub]
        | some l =>
            rw [hl] at h
            simp only [Option.some_bind] at h
            rw [hsub] at h
            simp only [Option.getD_some] at h
            have hcur : { current with subtasks := some l } = current := by
              cases current
              simp_all
            simp only [reducerSetSubtaskNotes, hl, hsub]
            rw [setNotes_not_found h, hcur, setTask_eq_self hl]
  · intro cat key tid title h
    cases hl : lookupTask cat.tasks key with
    | none => simp [reducerRenameSubtask, hl]
    | some current =>
        cases hsub : current.subtasks with
        | none => simp [reducerRenameSubtask, hl, hsub]
        | some l =>
            rw [hl] at h
            simp only [Option.some_bind] at h
            rw [hsub] at h
            simp only [Option.getD_some] at h
            have hcur : { current with subtasks := some l } = current := by
              cases current
              simp_all
            simp only [reducerRenameSubtask, hl, hsub]
            rw [renameNode_not_found h, hcur, setTask_eq_self hl]

/-- C8 witness: the amended statement at a concrete state and target id
that occurs nowhere in the addressed tree. -/
theorem unknown_target_ops_witness :
    reducerToggleSubtask exPlanC8 "k" "zzz" = exPlanC8 ∧
    reducerSetSubtaskNotes exPlanC8 "k" "zzz" "note" = exPlanC8 ∧
    reducerRenameSubtask exPlanC8 "k" "zzz" "title" = exPlanC8 ∧
    removeNode "zzz" (.cons (.mk "a" "a" (some false) none .nil) .nil) =
      .cons (.mk "a" "a" (some false) none .nil) .nil :=
  ⟨unknown_target_ops.1 exPlanC8 "k" "zzz" (by decide),
   unknown_target_ops.2.1 exPlanC8 "k" "zzz" "note" (by decide),
   unknown_target_ops.2.2.1 exPlanC8 "k" "zzz" "title" (by decide),
   unknown_target_ops.2.2.2 _ "zzz" (by decide)⟩

/-- C8 counterexample: removeSubtask with an unknown target id changes the
state — the owning task's completed flag is overwritten from true to false
by the recomputation the operation performs even when nothing matched. -/
theorem unknown_target_remove_counterexample :
    ((lookupTask exPlanC8.tasks "k").bind TaskMeta.completed) = some true ∧
    ((lookupTask (reducerRemoveSubtask exPlanC8 "k" "zzz").tasks "k").bind
      TaskMeta.completed) = some false ∧
    reducerRemoveSubtask exPlanC8 "k" "zzz" ≠ exPlanC8 := by decide

theorem Forest.append_nil (a : Forest) : a ++ Forest.nil = a := by
  induction a using Forest.deepInduction with
  | h0 => rfl
  | h1 i t c n ch rest ih1 ih2 =>
      show Forest.cons (.mk i t c n ch) (rest ++ .nil) = Forest.cons (.mk i t c n ch) rest
      rw [ih2]

theorem Forest.cons_append (s : Subtask) (rest b : Forest) :
    (Forest.cons s rest) ++ b = .cons s (rest ++ b) := rfl

theorem removeNode_append (tid : String) (a b : Forest) :
    removeNode tid (a ++ b) = removeNode tid a ++ removeNode tid b := by
  induction a using Forest.deepInduction with
  | h0 => rfl
  | h1 i t c n ch rest ih1 ih2 =>
      rw [Forest.cons_append]
      by_cases hi : (i == tid) = true
      · simp [removeNode, hi, ih2]
      · simp [removeNode, hi, ih2, Forest.cons_append]

theorem removeNode_self_singleton (nn : Subtask) :
    removeNode nn.id (.cons nn .nil) = .nil := by
  cases nn
  simp [removeNode, Subtask.id]

theorem removeNode_addToTree {nn : Subtask} {pid : String} : ∀ {l : Forest},
    occursForest nn.id l = false → removeNode nn.id (addToTree nn pid l) = l := by
  intro l
  induction l using Forest.deepInduction with
  | h0 => intro _; rfl
  | h1 i t c n ch rest ih1 ih2 =>
      intro h
      obtain ⟨hi, hch, hrest⟩ := occursForest_cons_false h
      by_cases hp : (i == pid) = true
      · simp only [addToTree]
        rw [if_pos hp]
        simp only [removeNode]
        rw [if_neg (by simp [hi]), removeNode_append, removeNode_not_found hch,
          removeNode_self_singleton, Forest.append_nil, ih2 hrest]
      · simp only [addToTree]
        rw [if_neg hp]
        simp only [removeNode]
        rw [if_neg (by simp [hi]), ih1 hch, ih2 hrest]

/-- C10: addSubtask performs no completion propagation: the owning task's
own completed flag is read back unchanged, deleting the fresh node from
the produced subtasks array restores the previous array exactly (so every
pre-existing node keeps all of its fields, its completed flag included),
and on a concrete insert of an incomplete node under a parent whose
children were all completed the non-leaf completion invariant fails to
hold immediately afterwards. -/
theorem addSubtask_no_propagation :
    (∀ (cat : PlanState) (key title : String) (notes : Option String)
        (parentId : Option String) (newId : String),
      ((lookupTask (reducerAddSubtask cat key title notes parentId newId).tasks key).bind
        TaskMeta.completed) = ((lookupTask cat.tasks key).bind TaskMeta.completed)) ∧
    (∀ (subs0 : Forest) (parentId : Option String) (nn : Subtask),
      occursForest nn.id subs0 = false →
      removeNode nn.id (addSubtaskSubs subs0 parentId nn) = subs0) ∧
    invForest (((lookupTask (reducerAddSubtask exPlanC10 "k" "t" none (some "p")
      "new").tasks "k").bind TaskMeta.subtasks).getD .nil) = false := by
  refine ⟨?_, ?_, by decide⟩
  · intro cat key title notes parentId newId
    cases hl : lookupTask cat.tasks key with
    | none =>
        simp [reducerAddSubtask, hl, lookupTask_setTask_self]
    | some current =>
        simp [reducerAddSubtask, hl, lookupTask_setTask_self]
  · intro subs0 parentId nn h
    cases parentId with
    | none =>
        simp only [addSubtaskSubs]
        rw [removeNode_append, removeNode_not_found h, removeNode_self_singleton,
          Forest.append_nil]
    | some pid =>
        by_cases hp : pid = ""
        · simp only [addSubtaskSubs]
          rw [if_pos hp, removeNode_append, removeNode_not_found h,
            removeNode_self_singleton, Forest.append_nil]
        · simp only [addSubtaskSubs]
          rw [if_neg hp]
          by_cases he : subs0 = addToTree nn pid subs0
          · rw [if_pos he, removeNode_append, removeNode_not_found h,
              removeNode_self_singleton, Forest.append_nil]
          · rw [if_neg he]
            exact removeNode_addToTree h

/-- C10 witness: the statement applied to the concrete completed tree, the
insert under the inner parent, and the fresh-node deletion round trip. -/
theorem addSubtask_no_propagation_witness :
    ((lookupTask (reducerAddSubtask exPlanC10 "k" "t" none (some "p") "new").tasks
      "k").bind TaskMeta.completed) =
      ((lookupTask exPlanC10.tasks "k").bind TaskMeta.completed) ∧
    removeNode "new" (addSubtaskSubs exSubsC10 (some "p")
      (.mk "new" "t" (some false) none .nil)) = exSubsC10 :=
  ⟨addSubtask_no_propagation.1 exPlanC10 "k" "t" none (some "p") "new",
   addSubtask_no_propagation.2.1 exSubsC10 (some "p")
     (.mk "new" "t" (some false) none .nil) (by decide)⟩

theorem addToTree_not_found {nn : Subtask} {pid : String} : ∀ {l : Forest},
    occursForest pid l = false → addToTree nn pid l = l := by
  intro l
  induction l using Forest.deepInduction with
  | h0 => intro _; rfl
  | h1 i t c n ch rest ih1 ih2 =>
      intro h
      obtain ⟨hi, hch, hrest⟩ := occursForest_cons_false h
      simp only [addToTree]
      rw [if_neg (by simp [hi]), ih1 hch, ih2 hrest]

theorem sizeForest_append (a b : Forest) :
    sizeForest (a ++ b) = sizeForest a + sizeForest b := by
  induction a using Forest.deepInduction with
  | h0 =>
      show sizeForest b = sizeForest Forest.nil + sizeForest b
      simp [sizeForest]
  | h1 i t c n ch rest ih1 ih2 =>
      rw [Forest.cons_append]
      simp only [sizeForest, ih2]
      omega

theorem sizeForest_addToTree (nn : Subtask) (pid : String) : ∀ (l : Forest),
    sizeForest l ≤ sizeForest (addToTree nn pid l) ∧
    (occursForest pid l = true → sizeForest l < sizeForest (addToTree nn pid l)) := by
  intro l
  induction l using Forest.deepInduction with
  | h0 =>
      refine ⟨Nat.le_refl _, fun h => ?_⟩
      simp [occursForest, findNode, Option.isSome] at h
  | h1 i t c n ch rest ih1 ih2 =>
      by_cases hp : (i == pid) = true
      · simp only [addToTree]
        rw [if_pos hp]
        simp only [sizeForest, sizeForest_append]
        have hnn : 1 ≤ sizeForest (Forest.cons nn .nil) := by
          cases nn
          simp [sizeForest]
        have h2 := ih2.1
        exact ⟨by omega, fun _ => by omega⟩
      · simp only [addToTree]
        rw [if_neg hp]
        simp only [sizeForest]
        refine ⟨?_, ?_⟩
        · have := ih1.1
          have := ih2.1
          omega
        · intro hocc
          rw [occursForest_cons] at hocc
          simp only [hp, Bool.false_or, Bool.or_eq_true] at hocc
          rcases hocc with h | h
          · have := ih1.2 h
            have := ih2.1
            omega
          · have := ih1.1
            have := ih2.2 h
            omega

theorem addToTree_ne {nn : Subtask} {pid : String} {l : Forest}
    (h : occursForest pid l = true) : addToTree nn pid l ≠ l := by
  intro he
  have hlt := (sizeForest_addToTree nn pid l).2 h
  rw [he] at hlt
  exact Nat.lt_irrefl _ hlt

theorem findNode_addToTree {pid : String} {nn : Subtask} : ∀ {l : Forest}
    {i t : String} {c : Option Bool} {n : Option String} {ch : Forest},
    findNode pid l = some (.mk i t c n ch) →
    findNode pid (addToTree nn pid l) = some (.mk i t c n (ch ++ .cons nn .nil)) := by
  intro l
  induction l using Forest.deepInduction with
  | h0 => intro i t c n ch h; simp [findNode] at h
  | h1 i' t' c' n' ch' rest ih1 ih2 =>
      intro i t c n ch h
      simp only [findNode] at h
      by_cases hp : (i' == pid) = true
      · rw [if_pos hp] at h
        injection h with h
        cases h
        simp only [addToTree]
        rw [if_pos hp]
        simp only [findNode]
        rw [if_pos hp]
      · rw [if_neg hp] at h
        simp only [addToTree]
        rw [if_neg hp]
        simp only [findNode]
        rw [if_neg hp]
        cases hc : findNode pid ch' with
        | some f =>
            rw [hc] at h
            injection h with h
            rw [ih1 (hc.trans (by rw [h]))]
        | none =>
            rw [hc] at h
            have hocc : occursForest pid ch' = false := by
              simp [occursForest, hc]
            rw [addToTree_not_found hocc, hc]
            exact ih2 h

/-- C6 (amended): inserting with an absent parentId, an empty-string
parentId (which the source treats as absent), or a parentId matching no
node appends the new node as a root-level sibling, never dropping it;
inserting with a nonempty parentId that occurs in the tree performs the
tree insert, and the first node found under that id — at any depth — gets
the new node appended as its last child. -/
theorem addSubtask_insert_semantics :
    (∀ (subs0 : Forest) (nn : Subtask),
      addSubtaskSubs subs0 none nn = subs0 ++ .cons nn .nil) ∧
    (∀ (subs0 : Forest) (nn : Subtask),
      addSubtaskSubs subs0 (some "") nn = subs0 ++ .cons nn .nil) ∧
    (∀ (subs0 : Forest) (pid : String) (nn : Subtask), pid ≠ "" →
      occursForest pid subs0 = false →
      addSubtaskSubs subs0 (some pid) nn = subs0 ++ .cons nn .nil) ∧
    (∀ (subs0 : Forest) (pid : String) (nn : Subtask), pid ≠ "" →
      occursForest pid subs0 = true →
      addSubtaskSubs subs0 (some pid) nn = addToTree nn pid subs0) ∧
    (∀ (l : Forest) (pid i t : String) (c : Option Bool) (n : Option String)
        (ch : Forest) (nn : Subtask),
      findNode pid l = some (.mk i t c n ch) →
      findNode pid (addToTree nn pid l) = some (.mk i t c n (ch ++ .cons nn .nil))) := by
  refine ⟨fun subs0 nn => rfl, fun subs0 nn => rfl, ?_, ?_, ?_⟩
  · intro subs0 pid nn hp hocc
    simp only [addSubtaskSubs]
    rw [if_neg hp, addToTree_not_found hocc, if_pos rfl]
  · intro subs0 pid nn hp hocc
    simp only [addSubtaskSubs]
    rw [if_neg hp, if_neg (fun he => addToTree_ne hocc he.symm)]
  · intro l pid i t c n ch nn h
    exact findNode_addToTree h

/-- C6 witness: the amended statement at a two-level tree, covering the
deep insert, the resulting placement as last child, and the root fallback
for a missing id. -/
theorem addSubtask_insert_witness :
    addSubtaskSubs exTreeC6W (some "p") exNodeC6 = addToTree exNodeC6 "p" exTreeC6W ∧
    findNode "p" (addToTree exNodeC6 "p" exTreeC6W) =
      some (.mk "p" "p" (some false) none (Forest.nil ++ .cons exNodeC6 .nil)) ∧
    addSubtaskSubs exTreeC6W (some "q") exNodeC6 = exTreeC6W ++ .cons exNodeC6 .nil :=
  ⟨addSubtask_insert_semantics.2.2.2.1 exTreeC6W "p" exNodeC6 (by decide) (by decide),
   addSubtask_insert_semantics.2.2.2.2 exTreeC6W "p" "p" "p" (some false) none .nil
     exNodeC6 (by decide),
   addSubtask_insert_semantics.2.2.1 exTreeC6W "q" exNodeC6 (by decide) (by decide)⟩

/-- C6 counterexample: with parentId the empty string and a node whose id
is the empty string, the source's truthiness test routes the insert to the
root append, so the new node is not appended as a child of the matching
node as the claim requires. -/
theorem addSubtask_empty_parentId_counterexample :
    occursForest "" exTreeC6 = true ∧
    addSubtaskSubs exTreeC6 (some "") exNodeC6 = exTreeC6 ++ .cons exNodeC6 .nil ∧
    (findNode "" (addSubtaskSubs exTreeC6 (some "") exNodeC6)).map Subtask.children =
      some .nil := by decide

theorem lookupTask_eraseTask (tasks : Tasks) (key : String) :
    lookupTask (eraseTask tasks key) key = none := by
  induction tasks with
  | nil => rfl
  | cons kv rest ih =>
      obtain ⟨k, m⟩ := kv
      simp only [eraseTask, List.filter_cons] at ih ⊢
      by_cases hk : (k == key) = true
      · simp [bne, hk]
        exact ih
      · simp only [bne, hk, Bool.not_false, if_true]
        simp only [lookupTask]
        rw [if_neg hk]
        exact ih

/-- C5 (amended): removeTask deletes the metadata stored under the key and
rewrites the schedule so that: every remaining week has at least one day;
in the weeks matched by the key's parsed week number every remaining day
has activities or patterns; and in the matched day the addressed entry is
gone — the activity bucket keeps no activity with the key's title slug,
any other bucket keeps no pattern with zero problems and no problem with
the key's title slug inside the patterns matching the bucket slug.
Pre-existing empty patterns or empty days in weeks the key does not match
(or empty patterns in the matched day after an activity removal) are kept
as they are. -/
theorem removeTask_schedule_cleanup (cat : PlanState) (key : String) :
    lookupTask (reducerRemoveTask cat key).tasks key = none ∧
    ∀ w ∈ (reducerRemoveTask cat key).raw.schedule, w.days ≠ [] ∧
      (keyWeek key = some w.week → ∀ d ∈ w.days,
        ((d.activities.getD []) ≠ [] ∨ (d.patterns.getD []) ≠ []) ∧
        (d.day = keyDayRaw key →
          (keyBucketSlug key = some "activity" →
            ∀ act ∈ d.activities.getD [], some (slug act) ≠ keyTitleSlug key) ∧
          (keyBucketSlug key ≠ some "activity" →
            ∀ p ∈ d.patterns.getD [], p.problems ≠ [] ∧
              (some (slug p.name) = keyBucketSlug key →
                ∀ pr ∈ p.problems, some (slug pr) ≠ keyTitleSlug key)))) := by
  constructor
  · exact lookupTask_eraseTask cat.tasks key
  · intro w hw
    have hw' : w ∈ (cat.raw.schedule.map
        (removeRewriteWeek (keyWeek key) (keyBucketSlug key) (keyTitleSlug key)
          (keyDayRaw key))).filter (fun w => !w.days.isEmpty) := hw
    rw [List.mem_filter] at hw'
    obtain ⟨hmem, hne⟩ := hw'
    constructor
    · intro hnil
      rw [hnil] at hne
      simp at hne
    · intro hwk d hd
      obtain ⟨w0, hw0, hmap⟩ := List.mem_map.mp hmem
      by_cases hcase : (keyWeek key != some w0.week) = true
      · exfalso
        rw [removeRewriteWeek, if_pos hcase] at hmap
        rw [← hmap] at hwk
        simp only [bne_iff_ne, ne_eq] at hcase
        exact hcase hwk
      · rw [removeRewriteWeek, if_neg hcase] at hmap
        subst hmap
        obtain ⟨hdm, hdkeep⟩ := List.mem_filter.mp hd
        constructor
        · simp only [Bool.or_eq_true, Bool.not_eq_eq_eq_not, Bool.not_true] at hdkeep
          rcases hdkeep with h | h
          · refine Or.inl fun hnil => ?_
            rw [hnil] at h
            simp at h
          · refine Or.inr fun hnil => ?_
            rw [hnil] at h
            simp at h
        · intro hday
          obtain ⟨d0, hd0, hdmap⟩ := List.mem_map.mp hdm
          by_cases hdc : (d0.day != keyDayRaw key) = true
          · exfalso
            rw [removeRewriteDay, if_pos hdc] at hdmap
            rw [← hdmap] at hday
            simp only [bne_iff_ne, ne_eq] at hdc
            exact hdc hday
          · rw [removeRewriteDay, if_neg hdc] at hdmap
            by_cases hb : (keyBucketSlug key == some "activity") = true
            · rw [if_pos hb] at hdmap
              subst hdmap
              constructor
              · intro _ act hact
                have hprop := (List.mem_filter.mp hact).2
                simpa [bne_iff_ne] using hprop
              · intro hnb
                exact absurd (by simpa using hb) hnb
            · rw [if_neg hb] at hdmap
              subst hdmap
              constructor
              · intro hab
                rw [hab] at hb
                simp at hb
              · intro _ p hp
                obtain ⟨hpm, hplen⟩ := List.mem_filter.mp hp
                constructor
                · intro hnil
                  rw [hnil] at hplen
                  simp at hplen
                · intro hmatch pr hpr
                  obtain ⟨p0, hp0, hpmap⟩ := List.mem_map.mp hpm
                  by_cases hpc : (some (slug p0.name) == keyBucketSlug key) = true
                  · rw [if_pos hpc] at hpmap
                    subst hpmap
                    have hprop := (List.mem_filter.mp hpr).2
                    simpa [bne_iff_ne] using hprop
                  · exfalso
                    rw [if_neg hpc] at hpmap
                    subst hpmap
                    rw [hmatch] at hpc
                    simp at hpc

/-- C5 witness: the amended statement instantiated on the concrete
two-activity plan; the surviving day still has its other activity and no
activity with the removed title slug. -/
theorem removeTask_cleanup_witness :
    lookupTask (reducerRemoveTask exPlanC5W keyC5).tasks keyC5 = none ∧
    exDayC5W.activities.getD [] ≠ [] ∧
    some (slug "B") ≠ keyTitleSlug keyC5 := by
  have h := removeTask_schedule_cleanup exPlanC5W keyC5
  have h2 := h.2 exWeekC5W (by decide)
  have h3 := h2.2 (by decide) exDayC5W (by decide)
  refine ⟨h.1, ?_, ?_⟩
  · rcases h3.1 with ha | hp
    · exact ha
    · exact absurd rfl hp
  · exact (h3.2 (by decide)).1 (by decide) "B" (by decide)

/-- C5 counterexample: after removing the only activity of week one, a
pre-existing zero-problem pattern in the untouched week two survives, so
the resulting schedule does contain a pattern with zero problems. -/
theorem removeTask_empty_pattern_counterexample :
    (reducerRemoveTask exPlanC5 keyC5).raw.schedule.any (fun w => w.days.any (fun d =>
      (d.patterns.getD []).any (fun p => p.problems.isEmpty))) = true ∧
    lookupTask (reducerRemoveTask exPlanC5 keyC5).tasks keyC5 = none := by decide

theorem lookupTask_mem {tasks : Tasks} {k : String} {m : TaskMeta}
    (h : lookupTask tasks k = some m) : ∃ k', (k', m) ∈ tasks := by
  induction tasks with
  | nil => simp [lookupTask] at h
  | cons kv rest ih =>
      obtain ⟨k0, m0⟩ := kv
      simp only [lookupTask] at h
      by_cases hk : (k0 == k) = true
      · rw [if_pos hk] at h
        injection h with h
        exact ⟨k0, by rw [h]; exact List.mem_cons_self _ _⟩
      · rw [if_neg hk] at h
        obtain ⟨k', hk'⟩ := ih h
        exact ⟨k', List.mem_cons_of_mem _ hk'⟩

theorem tags_lookup_false {tasks : Tasks} {tag : String}
    (h : tasks.all (fun kv => !(kv.2.tags.getD []).contains tag) = true)
    (k : String) :
    (((lookupTask tasks k).bind TaskMeta.tags).getD []).contains tag = false := by
  cases hl : lookupTask tasks k with
  | none => rfl
  | some m =>
      obtain ⟨k', hmem⟩ := lookupTask_mem hl
      have hm := List.all_eq_true.mp h _ hmem
      simp only [Option.some_bind]
      simpa using hm

theorem mem_dayTags_aux (ps : List Pattern) : ∀ (acc : List String) (tg : String),
    tg ∈ ps.foldl (fun acc p =>
      if p.name != "" && !acc.contains p.name then acc ++ [p.name] else acc) acc →
    tg ∈ acc ∨ ∃ p ∈ ps, p.name = tg := by
  induction ps with
  | nil => intro acc tg h; exact Or.inl h
  | cons p rest ih =>
      intro acc tg h
      simp only [List.foldl_cons] at h
      rcases ih _ tg h with h' | h'
      · by_cases hc : (p.name != "" && !acc.contains p.name) = true
        · rw [if_pos hc] at h'
          rcases List.mem_append.mp h' with h'' | h''
          · exact Or.inl h''
          · simp only [List.mem_singleton] at h''
            exact Or.inr ⟨p, List.mem_cons_self _ _, h''.symm⟩
        · rw [if_neg hc] at h'
          exact Or.inl h'
      · obtain ⟨q, hq, hqn⟩ := h'
        exact Or.inr ⟨q, List.mem_cons_of_mem _ hq, hqn⟩

theorem mem_dayTags {ps : List Pattern} {tg : String} (h : tg ∈ dayTags ps) :
    ∃ p ∈ ps, p.name = tg := by
  rcases mem_dayTags_aux ps [] tg h with h' | h'
  · simp at h'
  · exact h'

theorem buildSections_tags {categoryId : String} {plan : PlanState} {sec : Section}
    (hsec : sec ∈ buildSections categoryId plan) {tg : String} (htg : tg ∈ sec.tags) :
    ∃ w ∈ plan.raw.schedule, ∃ d ∈ w.days, ∃ p ∈ d.patterns.getD [], p.name = tg := by
  unfold buildSections at hsec
  rw [List.mem_flatten] at hsec
  obtain ⟨inner, hinner, hsec⟩ := hsec
  obtain ⟨w, hwmem, hwmap⟩ := List.mem_map.mp hinner
  subst hwmap
  obtain ⟨d, hdmem, hdmap⟩ := List.mem_map.mp hsec
  subst hdmap
  obtain ⟨p, hp, hpn⟩ := mem_dayTags (htg : tg ∈ dayTags (d.patterns.getD []))
  exact ⟨w, hwmem, d, hdmem, p, hp, hpn⟩

theorem Forest.any_false {p : Subtask → Bool} (hp : ∀ s, p s = false) :
    ∀ f : Forest, f.any p = false := by
  intro f
  induction f using Forest.deepInduction with
  | h0 => rfl
  | h1 i t c n ch rest ih1 ih2 => simp [Forest.any, hp, ih2]

theorem tagPass_false {plan : PlanState} {selectedTag : String} {sec : Section}
    (h1 : selectedTag ≠ "")
    (h2 : plan.tasks.all (fun kv => !(kv.2.tags.getD []).contains selectedTag) = true)
    (h3 : sec.tags.contains selectedTag = false)
    (t : SectionTask) : tagPass plan selectedTag sec t = false := by
  unfold tagPass
  rw [if_neg (by simpa using h1)]
  simp only [tags_lookup_false h2, h3, Bool.or_self, Bool.false_eq_true, if_false]
  cases hpp : t.isPatternParent with
  | false => simp [hpp]
  | true =>
      simp only [hpp, if_true]
      exact Forest.any_false (fun s => by
        cases hp : parseEncodedSubtaskId s.id with
        | some pr => simp [hp]
        | none => simp [hp]) _

/-- C7: with an active tag filter whose tag occurs in no metadata entry's
tags and equals no pattern name in the schedule, every task of every
section is filtered out and the active-filter suppression drops all
emptied sections, so the prepared day-view section list is empty. -/
theorem tag_filter_empty (categoryId : String) (plan : PlanState)
    (selectedTag query : String)
    (h1 : selectedTag ≠ "")
    (h2 : plan.tasks.all (fun kv => !(kv.2.tags.getD []).contains selectedTag) = true)
    (h3 : plan.raw.schedule.all (fun w => w.days.all (fun d =>
        (d.patterns.getD []).all (fun p => !(p.name == selectedTag)))) = true) :
    preparedDayMode categoryId plan selectedTag query = [] := by
  have hact : (selectedTag != "" || jsTrim query != "") = true := by
    simp [bne_iff_ne, h1]
  simp only [preparedDayMode, hact, if_true]
  rw [List.filter_eq_nil_iff]
  intro s hs
  obtain ⟨sec, hsec, hmap⟩ := List.mem_map.mp hs
  have htags : sec.tags.contains selectedTag = false := by
    cases hc : sec.tags.contains selectedTag with
    | false => rfl
    | true =>
        exfalso
        have hmem : selectedTag ∈ sec.tags := by
          simpa [List.contains, List.elem_iff] using hc
        obtain ⟨w, hw, d, hd, p, hp, hpn⟩ := buildSections_tags hsec hmem
        have hw' := List.all_eq_true.mp h3 _ hw
        have hd' := List.all_eq_true.mp hw' _ hd
        have hp' := List.all_eq_true.mp hd' _ hp
        rw [hpn] at hp'
        simp at hp'
  have hfil : sec.tasks.filter (tagPass plan selectedTag sec) = [] := by
    rw [List.filter_eq_nil_iff]
    intro t _
    simp [tagPass_false h1 h2 htags t]
  rw [← hmap]
  simp only [hfil]
  split <;> simp

/-- C7 witness: on the concrete plan with one pattern tag and one tagged
problem, filtering by a tag that occurs nowhere yields zero sections. -/
theorem tag_filter_empty_witness :
    preparedDayMode "cat" exPlanC7 "graphs" "" = [] :=
  tag_filter_empty "cat" exPlanC7 "graphs" "" (by decide) (by decide) (by decide)

end Tracker
